import Mathlib

/-!
Verification development for the fraud-detection analysis pipeline
(`src/Script.py`).  The Python dataframe operations are shallowly
embedded: tables are lists of records, nullable columns are `Option`
values, pandas library calls (`drop_duplicates`, `fillna`, `merge`,
`pd.cut`, `pd.to_datetime`, `groupby ... sum`, `sort_values`, `head`)
are modelled by executable Lean functions with the semantics the
library documents for the arguments used in the script.
-/

/-! ### Duplicate-row removal, `holder_info.drop_duplicates()` (Script.py line 42).
pandas keeps the first occurrence of each fully-duplicated row and
otherwise preserves row order. -/

def dropDupAux {α : Type} [DecidableEq α] : List α → List α → List α
  | _, [] => []
  | seen, a :: l => if a ∈ seen then dropDupAux seen l else a :: dropDupAux (a :: seen) l

def dropDuplicates {α : Type} [DecidableEq α] (l : List α) : List α :=
  dropDupAux [] l

/-! ### `pd.cut(col, bins, labels, right=False)` (Script.py lines 98-106).
With `right=False` the intervals are left-inclusive and
right-exclusive; a value in no interval gets the null category. -/

def cutRightFalse : List Int → List String → Int → Option String
  | b0 :: b1 :: bs, lab :: labs, x =>
      if b0 ≤ x ∧ x < b1 then some lab else cutRightFalse (b1 :: bs) labs x
  | _, _, _ => none

def age_ranges : List Int := [0, 17, 24, 35, 45, 60, 100]

def age_categories : List String :=
  ["0-17", "18-24", "25-35", "36-45", "46-60", "60+"]

/-- The age-category column built by line 101 of the script, as a function
of the (integer) age; a null age yields a null category. -/
def ageCategoryOf (age : Int) : Option String :=
  cutRightFalse age_ranges age_categories age

/-! ### Table rows.  Nullable columns are `Option`-valued; the join key
`Identifier` is taken non-null, as the consistency checks of `main`
presuppose. -/

structure AcctRow where
  Identifier : Int
  AccountLength : Option Int
  AverageBalance : Option Int
  NumTransactions : Option Int
  NumDeposits : Option Int
  NumWithdrawals : Option Int
  NumTransfers : Option Int
  NumLoans : Option Int
  NumCreditCards : Option Int
  NumSavingsAccounts : Option Int
deriving DecidableEq

structure HolderRow where
  Identifier : Int
  DateOfBirth : Option String
  Gender : Option String
  Income : Option Int
  CreditScore : Option Int
  LoanAmount : Option Int
  EmploymentStatus : Option String
  MaritalStatus : Option String
  OccupancyStatus : Option String
  NumDependents : Option Int
  SocialMediaUsageHours : Option Int
  ShoppingFrequencyPerMonth : Option Int
  HealthInsuranceStatus : Option String
deriving DecidableEq

structure FraudRow where
  Identifier : Int
  MuleAccount : Option Int
deriving DecidableEq

/-! ### `clean_data` (Script.py lines 39-77).
`fillna(value=dict)` replaces the nulls of each named column by that
column's default and leaves non-null entries unchanged; the holder
table is de-duplicated first (line 42). -/

def fillAcct (r : AcctRow) : AcctRow :=
  { r with
    AccountLength := some (r.AccountLength.getD (-1)),
    AverageBalance := some (r.AverageBalance.getD (-1)),
    NumTransactions := some (r.NumTransactions.getD (-1)),
    NumDeposits := some (r.NumDeposits.getD (-1)),
    NumWithdrawals := some (r.NumWithdrawals.getD (-1)),
    NumTransfers := some (r.NumTransfers.getD (-1)),
    NumLoans := some (r.NumLoans.getD (-1)),
    NumCreditCards := some (r.NumCreditCards.getD (-1)),
    NumSavingsAccounts := some (r.NumSavingsAccounts.getD (-1)) }

def fillHolder (r : HolderRow) : HolderRow :=
  { r with
    DateOfBirth := some (r.DateOfBirth.getD "Missing"),
    Gender := some (r.Gender.getD "Missing"),
    Income := some (r.Income.getD (-1)),
    CreditScore := some (r.CreditScore.getD (-1)),
    LoanAmount := some (r.LoanAmount.getD (-1)),
    EmploymentStatus := some (r.EmploymentStatus.getD "Missing"),
    MaritalStatus := some (r.MaritalStatus.getD "Missing"),
    OccupancyStatus := some (r.OccupancyStatus.getD "Missing"),
    NumDependents := some (r.NumDependents.getD (-1)),
    SocialMediaUsageHours := some (r.SocialMediaUsageHours.getD (-1)),
    ShoppingFrequencyPerMonth := some (r.ShoppingFrequencyPerMonth.getD (-1)),
    HealthInsuranceStatus := some (r.HealthInsuranceStatus.getD "Missing") }

/-- `fraud_indicators.fillna(0)` (line 75): the scalar fill replaces every
null in the table by 0; on this table that is the MuleAccount column. -/
def fillFraud (r : FraudRow) : FraudRow :=
  { r with MuleAccount := some (r.MuleAccount.getD 0) }

def cleanAcctTable (l : List AcctRow) : List AcctRow := l.map fillAcct

def cleanHolderTable (l : List HolderRow) : List HolderRow :=
  (dropDuplicates l).map fillHolder

def cleanFraudTable (l : List FraudRow) : List FraudRow := l.map fillFraud

/-! ### `merge_datasets` (Script.py lines 80-84).
A pandas left merge on a key keeps every left row; each left row is
paired with every matching right row, or with an all-null right part
when no right row matches. -/

def leftMerge {α β : Type} (ka : α → Int) (kb : β → Int) :
    List α → List β → List (α × Option β)
  | [], _ => []
  | a :: l, r =>
      (let ms := r.filter (fun b => kb b == ka a)
       if ms.isEmpty then [(a, none)] else ms.map (fun b => (a, some b)))
      ++ leftMerge ka kb l r

/-- Row of the combined table: the account part, the (possibly unmatched)
holder part and the (possibly unmatched) fraud part. -/
abbrev CombinedRow : Type := (AcctRow × Option HolderRow) × Option FraudRow

def mergeDatasets (acct : List AcctRow) (holder : List HolderRow)
    (fraud : List FraudRow) : List CombinedRow :=
  leftMerge (fun p => p.1.Identifier) FraudRow.Identifier
    (leftMerge AcctRow.Identifier HolderRow.Identifier acct holder) fraud

/-- The pipeline of `main` (lines 177-180): clean each table, then merge. -/
def cleanedMerge (acct : List AcctRow) (holder : List HolderRow)
    (fraud : List FraudRow) : List CombinedRow :=
  mergeDatasets (cleanAcctTable acct) (cleanHolderTable holder) (cleanFraudTable fraud)

/-! ### Dates and the derived age (Script.py lines 89-96). -/

structure PDate where
  year : Int
  month : Int
  day : Int
deriving DecidableEq

def isLeapYear (y : Nat) : Bool :=
  (y % 4 == 0 && y % 100 != 0) || y % 400 == 0

def daysInMonth (y m : Nat) : Nat :=
  if m == 2 then (if isLeapYear y then 29 else 28)
  else if m == 4 || m == 6 || m == 9 || m == 11 then 30
  else 31

def digitsToNat : List Char → Option Nat
  | [] => none
  | cs =>
    if cs.all (fun c => c.isDigit) then
      some (cs.foldl (fun n c => 10 * n + (c.toNat - 48)) 0)
    else none

def splitSlash (cs : List Char) : List (List Char) :=
  match cs with
  | [] => [[]]
  | c :: rest =>
      let r := splitSlash rest
      if c == '/' then [] :: r
      else match r with
        | [] => [[c]]
        | g :: gs => (c :: g) :: gs

/-- `pd.to_datetime(s, format=dd/mm/yyyy, errors=coerce)` (line 92) on one
cell: parse a day/month/year string, yielding null (`NaT`) on any string
that does not parse as a valid calendar date. -/
def toDatetimeDMY (s : String) : Option PDate :=
  match (splitSlash s.data).map digitsToNat with
  | [some d, some m, some y] =>
      if 1 ≤ m ∧ m ≤ 12 ∧ 1 ≤ d ∧ d ≤ daysInMonth y m then
        some ⟨(y : Int), (m : Int), (d : Int)⟩
      else none
  | _ => none

/-- Python tuple comparison `(a, b) < (c, d)`: lexicographic. -/
def pairLtB (p q : Int × Int) : Bool :=
  p.1 < q.1 || (p.1 == q.1 && p.2 < q.2)

/-- The age column of lines 92-96 on one row: parse the date-of-birth
cell, then apply the lambda of line 93.  A null or unparseable cell
gives `NaT`, whose year/month/day fields are nan, so the arithmetic
yields a null age rather than raising. -/
def ageOf (current : PDate) (dob : Option String) : Option Int :=
  match dob.bind toDatetimeDMY with
  | none => none
  | some b =>
      some (current.year - b.year -
        (if pairLtB (current.month, current.day) (b.month, b.day) then 1 else 0))

/-! ### `audit_data` (Script.py lines 26-34): the missing percentage of a
column, guarded against an empty table.  Python float division is
modelled by rational division. -/

def missingPct {α : Type} (col : List (Option α)) : ℚ :=
  if 0 < col.length then
    ((col.countP (fun x => x.isNone) : ℚ) / (col.length : ℚ)) * 100
  else 0

/-- Modelled from the spec: the percentage of rows of the column holding
a (non-null) value, the quantity the audit property compares against;
the script itself prints only the missing percentage. -/
def valuePctSpec {α : Type} (col : List (Option α)) : ℚ :=
  if 0 < col.length then
    ((col.countP (fun x => x.isSome) : ℚ) / (col.length : ℚ)) * 100
  else 0

/-! ### Identifier-consistency check (Script.py lines 170-171): Python
chained equality of the three identifier sets. -/

def identifiersMatch (acct : List AcctRow) (holder : List HolderRow)
    (fraud : List FraudRow) : Bool :=
  ((acct.map AcctRow.Identifier).toFinset == (holder.map HolderRow.Identifier).toFinset)
    && ((holder.map HolderRow.Identifier).toFinset == (fraud.map FraudRow.Identifier).toFinset)

/-! ### `analyze_fraud_patterns` (Script.py lines 111-131).
The analysis reads the Age, Gender and MuleAccount columns of the
combined table after `create_derived_features`; `MRow` carries exactly
those columns and the AgeCategory column is the `pd.cut` of the Age
column (line 101).

pandas `groupby` semantics used, for the script's default arguments:
rows with a null group key are dropped (`dropna=True`); group keys are
sorted (`sort=True`), the categorical AgeCategory by its category
order and Gender ascending; since AgeCategory is categorical and
`observed=False`, every category appears (crossed with the observed
genders in the two-key case), an empty group summing to 0; `sum()`
skips null MuleAccount values. -/

structure MRow where
  Age : Option Int
  Gender : Option String
  MuleAccount : Option Int
deriving DecidableEq

def MRow.ageCat (r : MRow) : Option String := r.Age.bind ageCategoryOf

/-- The group key of `df.groupby([AgeCategory, Gender])`: null (and the
row dropped) as soon as either component is null. -/
def MRow.comboKey (r : MRow) : Option (String × String) :=
  match r.ageCat, r.Gender with
  | some c, some g => some (c, g)
  | _, _ => none

def muleVal (r : MRow) : Int := r.MuleAccount.getD 0

/-- `sum()` of the MuleAccount column over a list of rows (nulls skipped,
empty sum 0). -/
def muleSum (rows : List MRow) : Int := (rows.map muleVal).sum

def groupbyAgeSum (rows : List MRow) : List (String × Int) :=
  age_categories.map
    (fun c => (c, muleSum (rows.filter (fun r => r.ageCat == some c))))

/-- Stable insertion of a string into an (ascending) sorted list. -/
def insertStr (s : String) : List String → List String
  | [] => [s]
  | t :: ts => if s ≤ t then s :: t :: ts else t :: insertStr s ts

def sortStrings : List String → List String
  | [] => []
  | s :: l => insertStr s (sortStrings l)

/-- The distinct non-null gender values, ascending: the group index of
`df.groupby(Gender)`. -/
def observedGenders (rows : List MRow) : List String :=
  sortStrings (dropDuplicates (rows.filterMap MRow.Gender))

def groupbyGenderSum (rows : List MRow) : List (String × Int) :=
  (observedGenders rows).map
    (fun g => (g, muleSum (rows.filter (fun r => r.Gender == some g))))

/-- All pairs of a first component from `cs` and a second from `gs`, in
lexicographic (MultiIndex) order. -/
def pairsWith (cs gs : List String) : List (String × String) :=
  match cs with
  | [] => []
  | c :: rest => gs.map (fun g => (c, g)) ++ pairsWith rest gs

/-- `df.groupby([AgeCategory, Gender])[MuleAccount].sum().reset_index()`
(line 125): one row per (category, observed gender) pair, in key order. -/
def groupbyComboSum (rows : List MRow) : List ((String × String) × Int) :=
  (pairsWith age_categories (observedGenders rows)).map
    (fun k => (k, muleSum (rows.filter (fun r => r.comboKey == some k))))

/-- Stable insertion for a descending sort keyed by `key`: the new
element goes in front of the first element whose key is not larger. -/
def insertDescBy {γ : Type} (key : γ → Int) (x : γ) : List γ → List γ
  | [] => [x]
  | y :: ys => if key y ≤ key x then x :: y :: ys else y :: insertDescBy key x ys

/-- Stable descending sort by `key`; elements with equal keys keep their
relative order. -/
def sortDescBy {γ : Type} (key : γ → Int) : List γ → List γ
  | [] => []
  | x :: xs => insertDescBy key x (sortDescBy key xs)

/-- `fraud_analysis.sort_values(by=MuleAccount, ascending=False)`
(line 126). -/
def fraudAnalysisSorted (rows : List MRow) : List ((String × String) × Int) :=
  sortDescBy (fun p => p.2) (groupbyComboSum rows)

/-- `fraud_analysis.head(5)` (line 129): the reported table. -/
def fraudAnalysisTop5 (rows : List MRow) : List ((String × String) × Int) :=
  (fraudAnalysisSorted rows).take 5

def ageCatTotal (rows : List MRow) : Int :=
  ((groupbyAgeSum rows).map (fun p => p.2)).sum

def genderTotal (rows : List MRow) : Int :=
  ((groupbyGenderSum rows).map (fun p => p.2)).sum

def comboTotal (rows : List MRow) : Int :=
  ((groupbyComboSum rows).map (fun p => p.2)).sum

/-- Projection of a merged-table row to the columns the analysis reads,
with the Age column derived as in lines 92-96. -/
def combinedToMRow (current : PDate) (z : CombinedRow) : MRow :=
  { Age := ageOf current (z.1.2.bind HolderRow.DateOfBirth),
    Gender := z.1.2.bind HolderRow.Gender,
    MuleAccount := z.2.bind FraudRow.MuleAccount }

/-! ### Concrete example tables used by witnesses and counterexamples. -/

/-- Two rows whose age categories are 25-35 and 0-17 (in that source
order), the same gender and the same mule count. -/
def exC2 : List MRow :=
  [⟨some 30, some "M", some 1⟩, ⟨some 10, some "M", some 1⟩]

/-- One row with a null age (no age category) and one row with a null
gender, each flagged as a mule account. -/
def exC10 : List MRow :=
  [⟨none, some "M", some 1⟩, ⟨some 20, none, some 1⟩]

def exAcct1 : AcctRow :=
  ⟨1, none, none, none, none, none, none, none, none, none⟩

def exAcct2 : AcctRow :=
  ⟨2, some 10, none, none, none, none, none, none, none, none⟩

def exHolder1 : HolderRow :=
  ⟨1, some "15/03/1990", some "M", none, none, none, none, none, none, none,
   none, none, none⟩

def exHolder7 : HolderRow :=
  ⟨7, none, none, none, none, none, none, none, none, none, none, none, none⟩

def exFraud1 : FraudRow := ⟨1, some 1⟩

def exAcctTable : List AcctRow := [exAcct1, exAcct2]

def exHolderTable : List HolderRow := [exHolder1]

def exFraudTable : List FraudRow := [exFraud1]

/-- A one-account table whose identifier 5 appears in neither the holder
nor the fraud table. -/
def exAcct5 : AcctRow :=
  ⟨5, none, none, none, none, none, none, none, none, none⟩

def exAcctTable9 : List AcctRow := [exAcct5]

def exHolderTable9 : List HolderRow := [exHolder7]

def exFraudTable9 : List FraudRow := [exFraud1]

/-- The merged row the pipeline produces for `exAcct5`: unmatched on both
joins. -/
def exCombined9 : CombinedRow := ((fillAcct exAcct5, none), none)

/-! ## Lemmas about duplicate removal -/

theorem mem_dropDupAux {α : Type} [DecidableEq α] {a : α} :
    ∀ {seen l : List α}, a ∈ dropDupAux seen l → a ∈ l ∧ a ∉ seen := by
  intro seen l
  induction l generalizing seen with
  | nil => intro h; simp [dropDupAux] at h
  | cons b l ih =>
      intro h
      by_cases hb : b ∈ seen
      · have h2 := @ih seen (by simpa [dropDupAux, hb] using h)
        exact ⟨List.mem_cons_of_mem _ h2.1, h2.2⟩
      · simp only [dropDupAux, if_neg hb] at h
        rcases List.mem_cons.1 h with rfl | h2
        · exact ⟨List.mem_cons_self _ _, hb⟩
        · have h3 := @ih (b :: seen) h2
          have h4 : a ∉ seen := fun hc => h3.2 (List.mem_cons_of_mem _ hc)
          exact ⟨List.mem_cons_of_mem _ h3.1, h4⟩

theorem mem_dropDupAux_iff {α : Type} [DecidableEq α] {a : α} :
    ∀ {seen l : List α}, a ∈ dropDupAux seen l ↔ a ∈ l ∧ a ∉ seen := by
  intro seen l
  constructor
  · exact mem_dropDupAux
  · induction l generalizing seen with
    | nil => intro h; exact absurd h.1 (List.not_mem_nil a)
    | cons b l ih =>
        intro ⟨hmem, hns⟩
        by_cases hb : b ∈ seen
        · rcases List.mem_cons.1 hmem with rfl | h2
          · exact absurd hb hns
          · simpa [dropDupAux, hb] using ih ⟨h2, hns⟩
        · simp only [dropDupAux, if_neg hb]
          rcases List.mem_cons.1 hmem with rfl | h2
          · exact List.mem_cons_self _ _
          · by_cases hab : a = b
            · subst hab; exact List.mem_cons_self _ _
            · refine List.mem_cons_of_mem _ (ih ⟨h2, ?_⟩)
              intro hc
              rcases List.mem_cons.1 hc with h4 | h4
              · exact hab h4
              · exact hns h4

theorem nodup_dropDupAux {α : Type} [DecidableEq α] :
    ∀ {seen l : List α}, (dropDupAux seen l).Nodup := by
  intro seen l
  induction l generalizing seen with
  | nil => simp [dropDupAux]
  | cons b l ih =>
      by_cases hb : b ∈ seen
      · simpa [dropDupAux, hb] using ih
      · simp only [dropDupAux, if_neg hb]
        refine List.Nodup.cons (fun hc => ?_) ih
        exact (mem_dropDupAux hc).2 (List.mem_cons_self _ _)

theorem dropDupAux_eq_self {α : Type} [DecidableEq α] :
    ∀ {seen l : List α}, l.Nodup → (∀ a ∈ l, a ∉ seen) → dropDupAux seen l = l := by
  intro seen l
  induction l generalizing seen with
  | nil => intro _ _; rfl
  | cons b l ih =>
      intro hnd hs
      have hb : b ∉ seen := hs b (List.mem_cons_self _ _)
      simp only [dropDupAux, if_neg hb]
      have hnd2 := List.nodup_cons.1 hnd
      refine congrArg (b :: ·) (ih hnd2.2 ?_)
      intro a ha
      intro hc
      rcases List.mem_cons.1 hc with rfl | h4
      · exact hnd2.1 ha
      · exact hs a (List.mem_cons_of_mem _ ha) h4

theorem dropDuplicates_sublist {α : Type} [DecidableEq α] (l : List α) :
    List.Sublist (dropDuplicates l) l := by
  suffices h : ∀ (seen : List α), List.Sublist (dropDupAux seen l) l from h []
  induction l with
  | nil => intro seen; exact List.Sublist.refl _
  | cons b l ih =>
      intro seen
      by_cases hb : b ∈ seen
      · simpa [dropDupAux, hb] using List.sublist_cons_of_sublist b (ih seen)
      · simpa [dropDupAux, hb] using List.Sublist.cons₂ b (ih (b :: seen))

theorem nodup_dropDuplicates {α : Type} [DecidableEq α] (l : List α) :
    (dropDuplicates l).Nodup := nodup_dropDupAux

theorem mem_dropDuplicates {α : Type} [DecidableEq α] {a : α} {l : List α} :
    a ∈ dropDuplicates l ↔ a ∈ l := by
  rw [dropDuplicates, mem_dropDupAux_iff]
  simp

/-- Claim C7: on any holder table, removing exact-duplicate rows (keeping
first occurrences and the remaining row order, as witnessed by the
sublist and no-duplicate facts) is idempotent. -/
theorem holder_dropDuplicates_idempotent (l : List HolderRow) :
    dropDuplicates (dropDuplicates l) = dropDuplicates l ∧
    List.Sublist (dropDuplicates l) l ∧
    (dropDuplicates l).Nodup ∧
    (∀ a : HolderRow, a ∈ dropDuplicates l ↔ a ∈ l) := by
  refine ⟨?_, dropDuplicates_sublist l, nodup_dropDuplicates l,
    fun a => mem_dropDuplicates⟩
  exact dropDupAux_eq_self (nodup_dropDuplicates l) (fun a _ h => (List.not_mem_nil a) h)

/-! ## The age buckets (claim C1) -/

/-- Claim C1 counterexample: with the left-inclusive, right-exclusive
bins of line 101, age 17 falls in the interval [17, 24), whose label is
18-24, not in the bucket labelled 0-17. -/
theorem age_17_not_bucket_0_17 :
    ageCategoryOf 17 = some "18-24" ∧ ageCategoryOf 17 ≠ some "0-17" := by
  decide

/-- Claim C1 (amended): age 17 gets the label 18-24 (the interval
[17,24)), age 18 gets 18-24, and every age outside [0,100) — including
100 and -1 — gets no bucket, while every age inside [0,100) gets one. -/
theorem ageCategory_buckets :
    ageCategoryOf 17 = some "18-24" ∧
    ageCategoryOf 18 = some "18-24" ∧
    ageCategoryOf 100 = none ∧
    ageCategoryOf (-1) = none ∧
    (∀ a : Int, a < 0 ∨ 100 ≤ a → ageCategoryOf a = none) ∧
    (∀ a : Int, 0 ≤ a → a < 100 → (ageCategoryOf a).isSome) := by
  refine ⟨by decide, by decide, by decide, by decide, ?_, ?_⟩
  · intro a ha
    simp only [ageCategoryOf, age_ranges, age_categories, cutRightFalse]
    split_ifs <;> first | rfl | (exfalso; omega)
  · intro a h0 h1
    simp only [ageCategoryOf, age_ranges, age_categories, cutRightFalse]
    split_ifs <;> first | rfl | (exfalso; omega)

/-- Claim C1 witness: the amended statement applied at ages 150 and 30. -/
theorem ageCategory_buckets_witness :
    ageCategoryOf 150 = none ∧ (ageCategoryOf 30).isSome :=
  ⟨ageCategory_buckets.2.2.2.2.1 150 (by decide),
   ageCategory_buckets.2.2.2.2.2 30 (by decide) (by decide)⟩

/-! ## Cleaning leaves no nulls (claim C3) -/

/-- Claim C3: after cleaning, the nine named account columns, the twelve
named holder columns and the fraud flag hold no nulls, the nulls having
been replaced by -1 (numeric), the literal Missing (categorical) and 0
(fraud flag) respectively. -/
theorem cleaning_no_nulls (A : List AcctRow) (H : List HolderRow) (F : List FraudRow) :
    (∀ r ∈ cleanAcctTable A,
      r.AccountLength ≠ none ∧ r.AverageBalance ≠ none ∧ r.NumTransactions ≠ none ∧
      r.NumDeposits ≠ none ∧ r.NumWithdrawals ≠ none ∧ r.NumTransfers ≠ none ∧
      r.NumLoans ≠ none ∧ r.NumCreditCards ≠ none ∧ r.NumSavingsAccounts ≠ none) ∧
    (∀ r ∈ cleanHolderTable H,
      r.DateOfBirth ≠ none ∧ r.Gender ≠ none ∧ r.Income ≠ none ∧
      r.CreditScore ≠ none ∧ r.LoanAmount ≠ none ∧ r.EmploymentStatus ≠ none ∧
      r.MaritalStatus ≠ none ∧ r.OccupancyStatus ≠ none ∧ r.NumDependents ≠ none ∧
      r.SocialMediaUsageHours ≠ none ∧ r.ShoppingFrequencyPerMonth ≠ none ∧
      r.HealthInsuranceStatus ≠ none) ∧
    (∀ r ∈ cleanFraudTable F, r.MuleAccount ≠ none) ∧
    (∀ x : AcctRow, x.AccountLength = none → (fillAcct x).AccountLength = some (-1)) ∧
    (∀ x : AcctRow, x.NumLoans = none → (fillAcct x).NumLoans = some (-1)) ∧
    (∀ x : HolderRow, x.Income = none → (fillHolder x).Income = some (-1)) ∧
    (∀ x : HolderRow, x.Gender = none → (fillHolder x).Gender = some "Missing") ∧
    (∀ x : HolderRow, x.DateOfBirth = none → (fillHolder x).DateOfBirth = some "Missing") ∧
    (∀ x : FraudRow, x.MuleAccount = none → (fillFraud x).MuleAccount = some 0) := by
  refine ⟨?_, ?_, ?_, ?_, ?_, ?_, ?_, ?_, ?_⟩
  · intro r hr
    obtain ⟨x, -, rfl⟩ := List.mem_map.1 hr
    simp [fillAcct]
  · intro r hr
    obtain ⟨x, -, rfl⟩ := List.mem_map.1 hr
    simp [fillHolder]
  · intro r hr
    obtain ⟨x, -, rfl⟩ := List.mem_map.1 hr
    simp [fillFraud]
  · intro x hx; simp [fillAcct, hx]
  · intro x hx; simp [fillAcct, hx]
  · intro x hx; simp [fillHolder, hx]
  · intro x hx; simp [fillHolder, hx]
  · intro x hx; simp [fillHolder, hx]
  · intro x hx; simp [fillFraud, hx]

/-- Claim C3 witness: the cleaned example tables, with an all-null
account row, a null-gender holder row and a null fraud flag. -/
theorem cleaning_no_nulls_witness :
    ((fillAcct exAcct1).AccountLength ≠ none) ∧
    ((fillHolder exHolder7).Gender ≠ none) ∧
    ((fillFraud ⟨3, none⟩).MuleAccount = some 0) := by
  refine ⟨?_, ?_, ?_⟩
  · exact ((cleaning_no_nulls [exAcct1] [] []).1 (fillAcct exAcct1)
      (List.mem_map.2 ⟨exAcct1, List.mem_cons_self _ _, rfl⟩)).1
  · exact ((cleaning_no_nulls [] [exHolder7] []).2.1 (fillHolder exHolder7)
      (List.mem_map.2 ⟨exHolder7, by decide, rfl⟩)).2.1
  · exact (cleaning_no_nulls [] [] []).2.2.2.2.2.2.2.2 ⟨3, none⟩ rfl

/-! ## The audit percentages (claim C6) -/

/-- Claim C6: for a non-empty column the missing percentage and the
percentage of rows holding a value add up to 100; for the column of an
empty table the missing percentage is 0 (the division is guarded). -/
theorem audit_percentages {α : Type} (col : List (Option α)) :
    (col ≠ [] → missingPct col + valuePctSpec col = 100) ∧
    (col = [] → missingPct col = 0) := by
  constructor
  · intro hne
    have hlen : 0 < col.length := List.length_pos.2 hne
    have hcount : col.countP (fun x => x.isNone) + col.countP (fun x => x.isSome)
        = col.length := by
      have h1 := col.length_eq_countP_add_countP (fun (x : Option α) => x.isNone)
      have h2 : col.countP (fun x => decide ¬(Option.isNone x = true))
          = col.countP (fun x => x.isSome) := by
        refine List.countP_congr ?_
        intro x _
        cases x <;> simp
      omega
    rw [missingPct, valuePctSpec, if_pos hlen, if_pos hlen]
    have hq : ((col.length : ℚ)) ≠ 0 := by
      exact_mod_cast Nat.pos_iff_ne_zero.1 hlen
    have hcq : ((col.countP (fun x => x.isNone) : ℚ))
        + ((col.countP (fun x => x.isSome) : ℚ)) = (col.length : ℚ) := by
      exact_mod_cast hcount
    field_simp
    linarith
  · intro h
    subst h
    rfl

/-- Claim C6 witness: a two-row column with one null, and the empty
column. -/
theorem audit_percentages_witness :
    missingPct [some (1 : Int), none] + valuePctSpec [some (1 : Int), none] = 100 ∧
    missingPct ([] : List (Option Int)) = 0 :=
  ⟨(audit_percentages [some (1 : Int), none]).1 (by decide),
   (audit_percentages ([] : List (Option Int))).2 rfl⟩

/-! ## The identifier-consistency check (claim C8) -/

/-- Claim C8: the check of lines 170-171 returns true exactly when the
three identifier sets agree as sets, so it returns false whenever one
table misses an identifier present in another. -/
theorem identifiersMatch_iff (A : List AcctRow) (H : List HolderRow) (F : List FraudRow) :
    identifiersMatch A H F = true ↔
      ((∀ x : Int, x ∈ A.map AcctRow.Identifier ↔ x ∈ H.map HolderRow.Identifier) ∧
       (∀ x : Int, x ∈ A.map AcctRow.Identifier ↔ x ∈ F.map FraudRow.Identifier)) := by
  rw [identifiersMatch, Bool.and_eq_true, beq_iff_eq, beq_iff_eq,
    Finset.ext_iff, Finset.ext_iff]
  simp only [List.mem_toFinset]
  constructor
  · intro ⟨h1, h2⟩
    exact ⟨h1, fun x => (h1 x).trans (h2 x)⟩
  · intro ⟨h1, h2⟩
    exact ⟨h1, fun x => ((h1 x).symm).trans (h2 x)⟩

/-! ## The derived age (claim C4) -/

theorem pairLtB_eq_true_iff (p q : Int × Int) :
    pairLtB p q = true ↔ (p.1 < q.1 ∨ (p.1 = q.1 ∧ p.2 < q.2)) := by
  simp [pairLtB]

/-- Claim C4: on a row with a parseable day/month/year date of birth the
derived age is the current year minus the birth year, minus one exactly
when (current month, current day) is lexicographically before (birth
month, birth day); a null or unparseable date of birth gives a null age
(the computation yields null instead of raising). -/
theorem derived_age (current : PDate) (dob : Option String) :
    (∀ b : PDate, dob.bind toDatetimeDMY = some b →
      ageOf current dob =
        some (current.year - b.year -
          (if current.month < b.month ∨ (current.month = b.month ∧ current.day < b.day)
           then 1 else 0))) ∧
    (dob.bind toDatetimeDMY = none → ageOf current dob = none) := by
  constructor
  · intro b hb
    simp only [ageOf, hb]
    have hif : (if pairLtB (current.month, current.day) (b.month, b.day)
          then (1 : Int) else 0)
        = (if current.month < b.month ∨ (current.month = b.month ∧ current.day < b.day)
          then (1 : Int) else 0) := by
      by_cases hp : current.month < b.month ∨ (current.month = b.month ∧ current.day < b.day)
      · rw [if_pos hp, if_pos ((pairLtB_eq_true_iff _ _).2 hp)]
      · rw [if_neg hp, if_neg ?_]
        intro hc
        exact hp ((pairLtB_eq_true_iff _ _).1 hc)
    rw [hif]
  · intro hb
    simp only [ageOf, hb]

/-- Claim C4 witness: the theorem applied on 2026-10-12 to the parseable
date 15/03/1990 (age 36, birthday already passed) and to a null date of
birth. -/
theorem derived_age_witness :
    ageOf ⟨2026, 10, 12⟩ (some "15/03/1990") = some 36 ∧
    ageOf ⟨2026, 10, 12⟩ none = none := by
  constructor
  · have h := (derived_age ⟨2026, 10, 12⟩ (some "15/03/1990")).1 ⟨1990, 3, 15⟩ rfl
    rw [h]
    decide
  · exact (derived_age ⟨2026, 10, 12⟩ none).2 rfl

/-! ## Left joins preserve cardinality (claim C5) -/

theorem filter_key_length_le_one {β : Type} (kb : β → Int) (k : Int) :
    ∀ {r : List β}, (r.map kb).Nodup → (r.filter (fun b => kb b == k)).length ≤ 1 := by
  intro r
  induction r with
  | nil => intro _; simp
  | cons b rest ih =>
      intro hnd
      rw [List.map_cons, List.nodup_cons] at hnd
      by_cases hk : kb b = k
      · have hempty : rest.filter (fun x => kb x == k) = [] := by
          rw [List.filter_eq_nil_iff]
          intro x hx hcx
          refine hnd.1 (List.mem_map.2 ⟨x, hx, ?_⟩)
          rw [hk]
          simpa using hcx
        have hkb : (kb b == k) = true := by simpa using hk
        simp [List.filter_cons, hkb, hempty]
      · have hkb : (kb b == k) = false := by simpa using hk
        simpa [List.filter_cons, hkb] using ih hnd.2

theorem leftMerge_length {α β : Type} (ka : α → Int) (kb : β → Int)
    (l : List α) (r : List β) (hn : (r.map kb).Nodup) :
    (leftMerge ka kb l r).length = l.length := by
  induction l with
  | nil => rfl
  | cons a rest ih =>
      show ((if (r.filter (fun b => kb b == ka a)).isEmpty
             then [(a, (none : Option β))]
             else (r.filter (fun b => kb b == ka a)).map (fun b => (a, some b)))
            ++ leftMerge ka kb rest r).length = rest.length + 1
      rw [List.length_append, ih]
      by_cases he : (r.filter (fun b => kb b == ka a)).isEmpty
      · rw [if_pos he]
        simp [Nat.add_comm]
      · rw [if_neg he, List.length_map]
        have hle := filter_key_length_le_one kb (ka a) hn
        have hpos : 0 < (r.filter (fun b => kb b == ka a)).length := by
          cases hf : (r.filter (fun b => kb b == ka a)) with
          | nil => rw [hf] at he; simp at he
          | cons x xs => simp [hf]
        omega

/-- Claim C5: when the identifier column is duplicate-free in each of the
three tables, the double left join keeps exactly one row per account
row. -/
theorem mergeDatasets_length (A : List AcctRow) (H : List HolderRow) (F : List FraudRow)
    (hA : (A.map AcctRow.Identifier).Nodup)
    (hH : (H.map HolderRow.Identifier).Nodup)
    (hF : (F.map FraudRow.Identifier).Nodup) :
    (mergeDatasets A H F).length = A.length := by
  have := hA
  rw [mergeDatasets, leftMerge_length _ _ _ _ hF, leftMerge_length _ _ _ _ hH]

/-- Claim C5 witness: the two-account example tables, whose identifier
columns are duplicate-free. -/
theorem mergeDatasets_length_witness :
    ((exAcctTable.map AcctRow.Identifier).Nodup ∧
     (exHolderTable.map HolderRow.Identifier).Nodup ∧
     (exFraudTable.map FraudRow.Identifier).Nodup) ∧
    (mergeDatasets exAcctTable exHolderTable exFraudTable).length = exAcctTable.length :=
  ⟨⟨by decide, by decide, by decide⟩,
   mergeDatasets_length exAcctTable exHolderTable exFraudTable
     (by decide) (by decide) (by decide)⟩

/-! ## Unmatched rows stay null after the join (claim C9) -/

theorem mem_leftMerge {α β : Type} {ka : α → Int} {kb : β → Int}
    {l : List α} {r : List β} {z : α × Option β} (hz : z ∈ leftMerge ka kb l r) :
    z.1 ∈ l ∧ (z.2 = none ∨ ∃ b ∈ r, z.2 = some b ∧ kb b = ka z.1) := by
  induction l with
  | nil => simp [leftMerge] at hz
  | cons a rest ih =>
      have hz2 : z ∈ (if (r.filter (fun b => kb b == ka a)).isEmpty
            then [(a, (none : Option β))]
            else (r.filter (fun b => kb b == ka a)).map (fun b => (a, some b)))
          ++ leftMerge ka kb rest r := hz
      rcases List.mem_append.1 hz2 with hhead | htail
      · by_cases he : (r.filter (fun b => kb b == ka a)).isEmpty
        · rw [if_pos he] at hhead
          rcases List.mem_singleton.1 hhead with rfl
          exact ⟨List.mem_cons_self _ _, Or.inl rfl⟩
        · rw [if_neg he] at hhead
          obtain ⟨b, hbmem, rfl⟩ := List.mem_map.1 hhead
          have hb2 := List.mem_filter.1 hbmem
          refine ⟨List.mem_cons_self _ _, Or.inr ⟨b, hb2.1, rfl, ?_⟩⟩
          simpa using hb2.2
      · have := ih htail
        exact ⟨List.mem_cons_of_mem _ this.1, this.2⟩

theorem leftMerge_total {α β : Type} (ka : α → Int) (kb : β → Int)
    {l : List α} (r : List β) {a : α} (ha : a ∈ l) :
    ∃ ob, (a, ob) ∈ leftMerge ka kb l r := by
  induction l with
  | nil => exact absurd ha (List.not_mem_nil a)
  | cons a0 rest ih =>
      rcases List.mem_cons.1 ha with rfl | ha2
      · by_cases he : (r.filter (fun b => kb b == ka a)).isEmpty
        · refine ⟨none, List.mem_append.2 (Or.inl ?_)⟩
          show (a, (none : Option β)) ∈
            (if (r.filter (fun b => kb b == ka a)).isEmpty
             then [(a, (none : Option β))]
             else (r.filter (fun b => kb b == ka a)).map (fun b => (a, some b)))
          rw [if_pos he]
          exact List.mem_singleton.2 rfl
        · cases hf : (r.filter (fun b => kb b == ka a)) with
          | nil => rw [hf] at he; simp at he
          | cons b bs =>
              refine ⟨some b, List.mem_append.2 (Or.inl ?_)⟩
              show (a, some b) ∈
                (if (r.filter (fun b => kb b == ka a)).isEmpty
                 then [(a, (none : Option β))]
                 else (r.filter (fun b => kb b == ka a)).map (fun b => (a, some b)))
              rw [if_neg he]
              exact List.mem_map.2 ⟨b, by rw [hf]; exact List.mem_cons_self _ _, rfl⟩
      · obtain ⟨ob, hob⟩ := ih ha2
        exact ⟨ob, List.mem_append.2 (Or.inr hob)⟩

/-- Claim C9: cleaning runs before merging, so an account identifier
absent from the raw holder table (or from the raw fraud table) leaves
the holder (or fraud) part of its merged row entirely null — the
default fills never touch it — and every account row does reach the
merged table. -/
theorem unmatched_rows_stay_null (A : List AcctRow) (H : List HolderRow) (F : List FraudRow) :
    (∀ z ∈ cleanedMerge A H F,
      (z.1.1.Identifier ∉ H.map HolderRow.Identifier → z.1.2 = none) ∧
      (z.1.1.Identifier ∉ F.map FraudRow.Identifier → z.2 = none)) ∧
    (∀ a ∈ A, ∃ z ∈ cleanedMerge A H F, z.1.1 = fillAcct a) := by
  constructor
  · intro z hz
    have h2 := mem_leftMerge hz
    have h1 := mem_leftMerge h2.1
    constructor
    · intro hnot
      rcases h1.2 with hnone | ⟨h', hmem, heq, hkey⟩
      · exact hnone
      · exfalso
        obtain ⟨x, hx, rfl⟩ := List.mem_map.1 hmem
        refine hnot (List.mem_map.2 ⟨x, mem_dropDuplicates.1 hx, ?_⟩)
        exact hkey
    · intro hnot
      rcases h2.2 with hnone | ⟨f', hmem, heq, hkey⟩
      · exact hnone
      · exfalso
        obtain ⟨x, hx, rfl⟩ := List.mem_map.1 hmem
        exact hnot (List.mem_map.2 ⟨x, hx, hkey⟩)
  · intro a ha
    have ha2 : fillAcct a ∈ cleanAcctTable A := List.mem_map.2 ⟨a, ha, rfl⟩
    obtain ⟨ob, hob⟩ := leftMerge_total AcctRow.Identifier HolderRow.Identifier
      (cleanHolderTable H) ha2
    obtain ⟨oc, hoc⟩ := leftMerge_total (fun p => p.1.Identifier) FraudRow.Identifier
      (cleanFraudTable F) hob
    exact ⟨((fillAcct a, ob), oc), hoc, rfl⟩

/-- Claim C9 witness: account identifier 5 appears in neither the holder
nor the fraud example table, and its merged row is null on both parts. -/
theorem unmatched_rows_stay_null_witness :
    (exCombined9 ∈ cleanedMerge exAcctTable9 exHolderTable9 exFraudTable9 ∧
     exCombined9.1.2 = none ∧ exCombined9.2 = none) ∧
    (∃ z ∈ cleanedMerge exAcctTable9 exHolderTable9 exFraudTable9,
      z.1.1 = fillAcct exAcct5) :=
  ⟨⟨by decide,
    ((unmatched_rows_stay_null exAcctTable9 exHolderTable9 exFraudTable9).1
      exCombined9 (by decide)).1 (by decide),
    ((unmatched_rows_stay_null exAcctTable9 exHolderTable9 exFraudTable9).1
      exCombined9 (by decide)).2 (by decide)⟩,
   (unmatched_rows_stay_null exAcctTable9 exHolderTable9 exFraudTable9).2
     exAcct5 (List.mem_cons_self _ _)⟩

/-! ## The stable descending sort (claim C2) -/

theorem mem_insertDescBy {γ : Type} (key : γ → Int) (x z : γ) :
    ∀ (l : List γ), z ∈ insertDescBy key x l ↔ z = x ∨ z ∈ l := by
  intro l
  induction l with
  | nil => simp [insertDescBy]
  | cons y ys ih =>
      by_cases h : key y ≤ key x
      · simp only [insertDescBy, if_pos h, List.mem_cons]
      · simp only [insertDescBy, if_neg h, List.mem_cons, ih]
        tauto

theorem perm_insertDescBy {γ : Type} (key : γ → Int) (x : γ) :
    ∀ (l : List γ), (insertDescBy key x l).Perm (x :: l) := by
  intro l
  induction l with
  | nil => exact List.Perm.refl _
  | cons y ys ih =>
      by_cases h : key y ≤ key x
      · rw [insertDescBy, if_pos h]
      · rw [insertDescBy, if_neg h]
        exact (ih.cons y).trans (List.Perm.swap x y ys)

theorem perm_sortDescBy {γ : Type} (key : γ → Int) :
    ∀ (l : List γ), (sortDescBy key l).Perm l := by
  intro l
  induction l with
  | nil => exact List.Perm.refl _
  | cons x xs ih =>
      exact (perm_insertDescBy key x (sortDescBy key xs)).trans (ih.cons x)

theorem pairwise_insertDescBy {γ : Type} {key : γ → Int} {x : γ} :
    ∀ {l : List γ}, l.Pairwise (fun u v => key v ≤ key u) →
      (insertDescBy key x l).Pairwise (fun u v => key v ≤ key u) := by
  intro l
  induction l with
  | nil => intro _; simp [insertDescBy]
  | cons y ys ih =>
      intro hp
      rw [List.pairwise_cons] at hp
      by_cases h : key y ≤ key x
      · rw [insertDescBy, if_pos h, List.pairwise_cons]
        refine ⟨?_, List.pairwise_cons.2 hp⟩
        intro z hz
        rcases List.mem_cons.1 hz with rfl | hz2
        · exact h
        · exact le_trans (hp.1 z hz2) h
      · rw [insertDescBy, if_neg h, List.pairwise_cons]
        refine ⟨?_, ih hp.2⟩
        intro z hz
        rcases (mem_insertDescBy key x z ys).1 hz with rfl | hz2
        · exact le_of_lt (lt_of_not_le h)
        · exact hp.1 z hz2

theorem pairwise_sortDescBy {γ : Type} (key : γ → Int) (l : List γ) :
    (sortDescBy key l).Pairwise (fun u v => key v ≤ key u) := by
  induction l with
  | nil => simp [sortDescBy]
  | cons x xs ih => exact pairwise_insertDescBy ih

theorem filter_insertDescBy_of_eq {γ : Type} {key : γ → Int} {x : γ} {v : Int}
    (hx : key x = v) :
    ∀ (l : List γ), (insertDescBy key x l).filter (fun z => key z == v)
      = x :: l.filter (fun z => key z == v) := by
  intro l
  induction l with
  | nil => simp [insertDescBy, List.filter_cons, hx]
  | cons y ys ih =>
      by_cases h : key y ≤ key x
      · rw [insertDescBy, if_pos h, List.filter_cons, if_pos (by simpa using hx)]
      · have hyv : key y ≠ v := by
          intro hc
          rw [hc, ← hx] at h
          exact h le_rfl
        rw [insertDescBy, if_neg h, List.filter_cons, if_neg (by simpa using hyv),
          ih, List.filter_cons, if_neg (by simpa using hyv)]

theorem filter_insertDescBy_of_ne {γ : Type} {key : γ → Int} {x : γ} {v : Int}
    (hx : key x ≠ v) :
    ∀ (l : List γ), (insertDescBy key x l).filter (fun z => key z == v)
      = l.filter (fun z => key z == v) := by
  intro l
  induction l with
  | nil => simp [insertDescBy, List.filter_cons, hx]
  | cons y ys ih =>
      by_cases h : key y ≤ key x
      · rw [insertDescBy, if_pos h, List.filter_cons, if_neg (by simpa using hx)]
      · rw [insertDescBy, if_neg h, List.filter_cons, List.filter_cons, ih]

theorem filter_sortDescBy {γ : Type} (key : γ → Int) (v : Int) :
    ∀ (l : List γ), (sortDescBy key l).filter (fun z => key z == v)
      = l.filter (fun z => key z == v) := by
  intro l
  induction l with
  | nil => rfl
  | cons x xs ih =>
      by_cases hx : key x = v
      · rw [sortDescBy, filter_insertDescBy_of_eq hx, ih, List.filter_cons,
          if_pos (by simpa using hx)]
      · rw [sortDescBy, filter_insertDescBy_of_ne hx, ih, List.filter_cons,
          if_neg (by simpa using hx)]

/-- Claim C2 (amended): the combination analysis groups by the pair
(age category, gender), sums the fraud indicator per group, sorts the
groups in descending order of the summed indicator with a stable sort,
and reports the first five rows; but groups with equal sums keep the
GROUPED table's key order (age-category order, then gender ascending),
not the source table's row order. -/
theorem fraud_analysis_sorted (rows : List MRow) :
    fraudAnalysisTop5 rows = (fraudAnalysisSorted rows).take 5 ∧
    (fraudAnalysisSorted rows).Perm (groupbyComboSum rows) ∧
    (fraudAnalysisSorted rows).Pairwise (fun u v => v.2 ≤ u.2) ∧
    (∀ v : Int, (fraudAnalysisSorted rows).filter (fun z => z.2 == v)
      = (groupbyComboSum rows).filter (fun z => z.2 == v)) := by
  refine ⟨rfl, perm_sortDescBy _ _, pairwise_sortDescBy _ _, fun v => ?_⟩
  exact filter_sortDescBy (fun p => p.2) v (groupbyComboSum rows)

/-- Claim C2 counterexample: in `exC2` the source rows present the group
(25-35, M) before (0-17, M) and both groups sum to 1, yet the reported
table lists (0-17, M) first — ties follow the grouped key order, not
the source row order. -/
theorem fraud_analysis_tie_order :
    exC2.map MRow.comboKey = [some ("25-35", "M"), some ("0-17", "M")] ∧
    fraudAnalysisTop5 exC2 =
      [(("0-17", "M"), 1), (("25-35", "M"), 1), (("18-24", "M"), 0),
       (("36-45", "M"), 0), (("46-60", "M"), 0)] := by
  constructor
  · decide
  · decide

/-! ## Null group keys are dropped from the grouped sums (claim C10) -/

theorem muleSum_cons (r : MRow) (l : List MRow) :
    muleSum (r :: l) = muleVal r + muleSum l := by
  simp [muleSum]

theorem muleSum_filter_or (p q : MRow → Bool) (hd : ∀ r, ¬(p r = true ∧ q r = true)) :
    ∀ rows : List MRow, muleSum (rows.filter (fun r => p r || q r))
      = muleSum (rows.filter p) + muleSum (rows.filter q) := by
  intro rows
  induction rows with
  | nil => rfl
  | cons r rest ih =>
      cases hp : p r with
      | true =>
          have hq : q r = false := by
            cases hqc : q r
            · rfl
            · exact absurd ⟨hp, hqc⟩ (hd r)
          rw [List.filter_cons_of_pos (by simp [hp]), List.filter_cons_of_pos hp,
            List.filter_cons_of_neg (by simp [hq]), muleSum_cons, muleSum_cons, ih]
          omega
      | false =>
          cases hq : q r with
          | true =>
              rw [List.filter_cons_of_pos (by simp [hp, hq]), List.filter_cons_of_pos hq,
                List.filter_cons_of_neg (by simp [hp]), muleSum_cons, muleSum_cons, ih]
              omega
          | false =>
              rw [List.filter_cons_of_neg (by simp [hp, hq]),
                List.filter_cons_of_neg (by simp [hp]),
                List.filter_cons_of_neg (by simp [hq]), ih]

/-- Membership of an optional key in a list of group keys; a null key
belongs to no group. -/
def keyIncl {κ : Type} [DecidableEq κ] (ks : List κ) : Option κ → Bool
  | none => false
  | some k => decide (k ∈ ks)

theorem keyIncl_nil {κ : Type} [DecidableEq κ] (o : Option κ) :
    keyIncl [] o = false := by
  cases o <;> simp [keyIncl]

theorem keyIncl_cons {κ : Type} [DecidableEq κ] (k : κ) (ks : List κ) (o : Option κ) :
    keyIncl (k :: ks) o = ((o == some k) || keyIncl ks o) := by
  cases o with
  | none => simp [keyIncl]
  | some k0 =>
      simp only [keyIncl, List.mem_cons]
      by_cases h : k0 = k
      · subst h; simp
      · simp [h]

theorem muleSum_groups {κ : Type} [DecidableEq κ] (key : MRow → Option κ) :
    ∀ (ks : List κ), ks.Nodup → ∀ rows : List MRow,
      ((ks.map (fun k => muleSum (rows.filter (fun r => decide (key r = some k))))).sum)
        = muleSum (rows.filter (fun r => keyIncl ks (key r))) := by
  intro ks
  induction ks with
  | nil =>
      intro _ rows
      rw [List.map_nil, List.sum_nil]
      have hfil : rows.filter (fun r => keyIncl [] (key r)) = [] := by
        rw [List.filter_eq_nil_iff]
        intro r _ hc
        rw [keyIncl_nil] at hc
        exact Bool.false_ne_true hc
      rw [hfil]
      rfl
  | cons k ks ih =>
      intro hnd rows
      have hnd2 := List.nodup_cons.1 hnd
      rw [List.map_cons, List.sum_cons, ih hnd2.2 rows]
      have hdisj : ∀ r, ¬(decide (key r = some k) = true ∧ keyIncl ks (key r) = true) := by
        intro r ⟨h1, h2⟩
        have hk : key r = some k := by simpa using h1
        rw [hk] at h2
        have : k ∈ ks := by simpa [keyIncl] using h2
        exact hnd2.1 this
      rw [← muleSum_filter_or _ _ hdisj rows]
      refine congrArg muleSum (List.filter_congr ?_)
      intro r _
      rw [keyIncl_cons]
      cases hk : key r with
      | none => simp
      | some k0 => by_cases h : k0 = k <;> simp [h]

theorem perm_insertStr (s : String) :
    ∀ l : List String, (insertStr s l).Perm (s :: l) := by
  intro l
  induction l with
  | nil => exact List.Perm.refl _
  | cons t ts ih =>
      by_cases h : s ≤ t
      · rw [insertStr, if_pos h]
      · rw [insertStr, if_neg h]
        exact (ih.cons t).trans (List.Perm.swap s t ts)

theorem perm_sortStrings : ∀ l : List String, (sortStrings l).Perm l := by
  intro l
  induction l with
  | nil => exact List.Perm.refl _
  | cons s ss ih =>
      exact (perm_insertStr s (sortStrings ss)).trans (ih.cons s)

theorem nodup_observedGenders (rows : List MRow) : (observedGenders rows).Nodup :=
  ((perm_sortStrings _).nodup_iff).2 (nodup_dropDuplicates _)

theorem mem_observedGenders {g : String} {rows : List MRow} :
    g ∈ observedGenders rows ↔ g ∈ rows.filterMap MRow.Gender :=
  ((perm_sortStrings _).mem_iff).trans mem_dropDuplicates

theorem ageCategoryOf_mem {a : Int} {c : String} (h : ageCategoryOf a = some c) :
    c ∈ age_categories := by
  simp only [ageCategoryOf, age_ranges, age_categories, cutRightFalse] at h
  rw [age_categories]
  split_ifs at h <;> simp_all

theorem ageCat_some_mem {r : MRow} {c : String} (h : r.ageCat = some c) :
    c ∈ age_categories := by
  rw [MRow.ageCat] at h
  cases hA : r.Age with
  | none => rw [hA] at h; exact absurd h (by simp)
  | some a =>
      rw [hA] at h
      exact ageCategoryOf_mem (by simpa using h)

theorem mem_pairsWith {p : String × String} :
    ∀ {cs gs : List String}, p ∈ pairsWith cs gs ↔ p.1 ∈ cs ∧ p.2 ∈ gs := by
  intro cs gs
  induction cs with
  | nil => simp [pairsWith]
  | cons c rest ih =>
      simp only [pairsWith, List.mem_append, List.mem_map, ih, List.mem_cons]
      constructor
      · intro h
        rcases h with ⟨g, hg, hpe⟩ | ⟨h1, h2⟩
        · exact ⟨Or.inl (by rw [← hpe]), by rw [← hpe]; exact hg⟩
        · exact ⟨Or.inr h1, h2⟩
      · intro ⟨h1, h2⟩
        rcases h1 with rfl | h1
        · exact Or.inl ⟨p.2, h2, rfl⟩
        · exact Or.inr ⟨h1, h2⟩

theorem nodup_pairsWith :
    ∀ {cs gs : List String}, cs.Nodup → gs.Nodup → (pairsWith cs gs).Nodup := by
  intro cs gs
  induction cs with
  | nil => intro _ _; simp [pairsWith]
  | cons c rest ih =>
      intro hcs hgs
      have hcs2 := List.nodup_cons.1 hcs
      refine List.Nodup.append ?_ (ih hcs2.2 hgs) ?_
      · refine List.Nodup.map ?_ hgs
        intro g1 g2 he
        exact congrArg Prod.snd he
      · intro p hp1 hp2
        obtain ⟨g, hg, rfl⟩ := List.mem_map.1 hp1
        exact hcs2.1 (mem_pairsWith.1 hp2).1

theorem ageCatTotal_eq (rows : List MRow) :
    ageCatTotal rows = muleSum (rows.filter (fun r => (r.ageCat).isSome)) := by
  have hnd : age_categories.Nodup := by decide
  rw [ageCatTotal, groupbyAgeSum, List.map_map]
  have h := muleSum_groups MRow.ageCat age_categories hnd rows
  have hmap : ((fun p : String × Int => p.2) ∘ fun c =>
        (c, muleSum (rows.filter (fun r => r.ageCat == some c))))
      = (fun c => muleSum (rows.filter (fun r => decide (r.ageCat = some c)))) := by
    funext c
    refine congrArg muleSum (List.filter_congr ?_)
    intro r _
    by_cases hc : r.ageCat = some c <;> simp [hc]
  rw [hmap, h]
  refine congrArg muleSum (List.filter_congr ?_)
  intro r _
  cases hc : r.ageCat with
  | none => simp [keyIncl]
  | some c => simp [keyIncl, ageCat_some_mem hc]

theorem genderTotal_eq (rows : List MRow) :
    genderTotal rows = muleSum (rows.filter (fun r => r.Gender.isSome)) := by
  rw [genderTotal, groupbyGenderSum, List.map_map]
  have h := muleSum_groups MRow.Gender (observedGenders rows)
    (nodup_observedGenders rows) rows
  have hmap : ((fun p : String × Int => p.2) ∘ fun g =>
        (g, muleSum (rows.filter (fun r => r.Gender == some g))))
      = (fun g => muleSum (rows.filter (fun r => decide (r.Gender = some g)))) := by
    funext g
    refine congrArg muleSum (List.filter_congr ?_)
    intro r _
    by_cases hg : r.Gender = some g <;> simp [hg]
  rw [hmap, h]
  refine congrArg muleSum (List.filter_congr ?_)
  intro r hr
  cases hg : r.Gender with
  | none => simp [keyIncl]
  | some g =>
      have : g ∈ observedGenders rows :=
        mem_observedGenders.2 (List.mem_filterMap.2 ⟨r, hr, hg⟩)
      simp [keyIncl, this]

theorem comboTotal_eq (rows : List MRow) :
    comboTotal rows
      = muleSum (rows.filter (fun r => r.ageCat.isSome && r.Gender.isSome)) := by
  rw [comboTotal, groupbyComboSum, List.map_map]
  have hnd : (pairsWith age_categories (observedGenders rows)).Nodup :=
    nodup_pairsWith (by decide) (nodup_observedGenders rows)
  have h := muleSum_groups MRow.comboKey
    (pairsWith age_categories (observedGenders rows)) hnd rows
  have hmap : ((fun p : (String × String) × Int => p.2) ∘ fun k =>
        (k, muleSum (rows.filter (fun r => r.comboKey == some k))))
      = (fun k => muleSum (rows.filter (fun r => decide (r.comboKey = some k)))) := by
    funext k
    refine congrArg muleSum (List.filter_congr ?_)
    intro r _
    by_cases hk : r.comboKey = some k <;> simp [hk]
  rw [hmap, h]
  refine congrArg muleSum (List.filter_congr ?_)
  intro r hr
  cases hc : r.ageCat with
  | none =>
      have hk : r.comboKey = none := by
        rw [MRow.comboKey, hc]
      simp [keyIncl, hk, hc]
  | some c =>
      cases hg : r.Gender with
      | none =>
          have hk : r.comboKey = none := by
            rw [MRow.comboKey, hc, hg]
          simp [keyIncl, hk, hc, hg]
      | some g =>
          have hk : r.comboKey = some (c, g) := by
            rw [MRow.comboKey, hc, hg]
          have hmem : (c, g) ∈ pairsWith age_categories (observedGenders rows) :=
            mem_pairsWith.2 ⟨ageCat_some_mem hc,
              mem_observedGenders.2 (List.mem_filterMap.2 ⟨r, hr, hg⟩)⟩
          simp [keyIncl, hk, hc, hg, hmem]

/-- Claim C10: each grouped sum of the analysis counts only the rows
whose group keys are all non-null (a null age category — from a null or
out-of-range age — or a null gender drops the row), so each of the
per-age-category, per-gender and per-combination totals can be strictly
below the MuleAccount sum of the whole table, as `exC10` shows. -/
theorem grouped_sums_drop_null_keys :
    (∀ rows : List MRow,
      ageCatTotal rows = muleSum (rows.filter (fun r => (r.ageCat).isSome))) ∧
    (∀ rows : List MRow,
      genderTotal rows = muleSum (rows.filter (fun r => r.Gender.isSome))) ∧
    (∀ rows : List MRow,
      comboTotal rows
        = muleSum (rows.filter (fun r => r.ageCat.isSome && r.Gender.isSome))) ∧
    (ageCatTotal exC10 < muleSum exC10 ∧ genderTotal exC10 < muleSum exC10 ∧
      comboTotal exC10 < muleSum exC10) := by
  refine ⟨ageCatTotal_eq, genderTotal_eq, comboTotal_eq, ?_, ?_, ?_⟩
  · decide
  · decide
  · decide
